import Mathlib

/-!
Shallow embedding of the caching and indexing core of `src/analytics.js`
(classes `AdvancedLRUCache`, `BloomFilter`, `RingBuffer`, `Trie`,
`PerformanceEngine`), together with theorems settling the specification
claims about it.

Modelling conventions, used throughout:
* A JavaScript `Map` is an insertion-ordered association list
  `List (κ × β)`.  `Map.set` on a present key updates the pair in place
  (keeping its position, as JS does); on an absent key it appends at the
  end.  `Map.delete` removes the (first) pair with the key.
* `Date.now()` is a `Nat` passed explicitly to each operation.
* Nullable values are `Option`; JS `null`/`undefined` is `none`.
* JS truthiness checks are modelled exactly where the source performs
  them: `if (oldestKey)` is false for the empty string, `ttl || default`
  treats `0` as absent, `if (expiry && ...)` treats expiry `0` as absent.
-/

namespace DailyDevJournal

/-- `Map.prototype.get`: value of the first pair with the given key. -/
def mapGet [DecidableEq κ] (m : List (κ × β)) (k : κ) : Option β :=
  (m.find? (fun p => p.1 = k)).map (·.2)

/-- `Map.prototype.has`. -/
def mapHas [DecidableEq κ] (m : List (κ × β)) (k : κ) : Bool :=
  m.any (fun p => p.1 = k)

/-- `Map.prototype.set`: update in place if present (keeping insertion
order), otherwise append at the end. -/
def mapSet [DecidableEq κ] : List (κ × β) → κ → β → List (κ × β)
  | [], k, v => [(k, v)]
  | (k₀, v₀) :: rest, k, v =>
    if k₀ = k then (k, v) :: rest else (k₀, v₀) :: mapSet rest k v

/-- `Map.prototype.delete`: remove the pair with the given key. -/
def mapDelete [DecidableEq κ] : List (κ × β) → κ → List (κ × β)
  | [], _ => []
  | (k₀, v₀) :: rest, k =>
    if k₀ = k then rest else (k₀, v₀) :: mapDelete rest k

section MapLemmas

variable [DecidableEq κ]

theorem mapGet_mapSet_self (m : List (κ × β)) (k : κ) (v : β) :
    mapGet (mapSet m k v) k = some v := by
  induction m with
  | nil => simp [mapGet, mapSet, List.find?]
  | cons p rest ih =>
    obtain ⟨k₀, v₀⟩ := p
    by_cases h : k₀ = k
    · subst h
      simp [mapGet, mapSet, List.find?]
    · simpa [mapGet, mapSet, h, List.find?] using ih

theorem mapHas_mapSet_self (m : List (κ × β)) (k : κ) (v : β) :
    mapHas (mapSet m k v) k = true := by
  induction m with
  | nil => simp [mapHas, mapSet]
  | cons p rest ih =>
    obtain ⟨k₀, v₀⟩ := p
    by_cases h : k₀ = k
    · subst h; simp [mapHas, mapSet]
    · simpa [mapHas, mapSet, h] using ih

theorem length_mapSet_of_mapHas (m : List (κ × β)) (k : κ) (v : β)
    (h : mapHas m k = true) : (mapSet m k v).length = m.length := by
  induction m with
  | nil => simp [mapHas] at h
  | cons p rest ih =>
    obtain ⟨k₀, v₀⟩ := p
    by_cases hk : k₀ = k
    · subst hk; simp [mapSet]
    · simp only [mapHas, List.any_cons, decide_eq_true_eq, hk,
        Bool.false_or] at h
      simp [mapSet, hk, ih h]

theorem length_mapDelete_of_mapHas (m : List (κ × β)) (k : κ)
    (h : mapHas m k = true) : (mapDelete m k).length = m.length - 1 := by
  induction m with
  | nil => simp [mapHas] at h
  | cons p rest ih =>
    obtain ⟨k₀, v₀⟩ := p
    by_cases hk : k₀ = k
    · subst hk; simp [mapDelete]
    · simp only [mapHas, List.any_cons, decide_eq_true_eq, hk,
        Bool.false_or] at h
      have hlen : 1 ≤ rest.length := by
        cases rest with
        | nil => simp [mapHas] at h
        | cons q t => simp
      simp only [mapDelete, hk, if_false, List.length_cons, ih h]
      omega

theorem keys_mapSet (m : List (κ × β)) (k : κ) (v : β) (hk : mapHas m k = true) :
    (mapSet m k v).map Prod.fst = m.map Prod.fst := by
  induction m with
  | nil => simp [mapHas] at hk
  | cons p rest ih =>
    obtain ⟨k₀, v₀⟩ := p
    by_cases h : k₀ = k
    · subst h; simp [mapSet]
    · simp only [mapHas, List.any_cons, decide_eq_true_eq, h,
        Bool.false_or] at hk
      simp [mapSet, h, ih hk]

theorem keys_mapSet_of_not_mapHas (m : List (κ × β)) (k : κ) (v : β)
    (hk : mapHas m k = false) :
    (mapSet m k v).map Prod.fst = m.map Prod.fst ++ [k] := by
  induction m with
  | nil => simp [mapSet]
  | cons p rest ih =>
    obtain ⟨k₀, v₀⟩ := p
    by_cases h : k₀ = k
    · subst h; simp [mapHas] at hk
    · simp only [mapHas, List.any_cons, decide_eq_true_eq, h,
        Bool.false_or] at hk
      simp [mapSet, h, ih hk]

theorem nodup_keys_mapSet (m : List (κ × β)) (k : κ) (v : β)
    (h : (m.map Prod.fst).Nodup) : ((mapSet m k v).map Prod.fst).Nodup := by
  by_cases hk : mapHas m k = true
  · rw [keys_mapSet m k v hk]; exact h
  · rw [keys_mapSet_of_not_mapHas m k v (by simpa using hk)]
    refine List.Nodup.append h (by simp) ?_
    intro a ha hb
    simp only [List.mem_singleton] at hb
    subst hb
    apply hk
    simp only [mapHas, List.any_eq_true, decide_eq_true_eq]
    obtain ⟨p, hp, hp1⟩ := List.mem_map.mp ha
    exact ⟨p, hp, hp1⟩

theorem mapGet_mapDelete_self (m : List (κ × β)) (k : κ)
    (h : (m.map Prod.fst).Nodup) : mapGet (mapDelete m k) k = none := by
  induction m with
  | nil => simp [mapGet, mapDelete]
  | cons p rest ih =>
    obtain ⟨k₀, v₀⟩ := p
    simp only [List.map_cons, List.nodup_cons] at h
    by_cases hk : k₀ = k
    · subst hk
      simp only [mapDelete, if_pos rfl]
      simp only [mapGet]
      rw [List.find?_eq_none.mpr]
      · rfl
      · intro p hp
        simp only [decide_eq_true_eq]
        intro hp1
        exact h.1 (hp1 ▸ List.mem_map_of_mem Prod.fst hp)
    · simp only [mapDelete, hk, if_false]
      simp only [mapGet, List.find?] at *
      have : (decide (k₀ = k)) = false := by simpa using hk
      rw [this]
      exact ih h.2

theorem mapDelete_sublist (m : List (κ × β)) (k : κ) :
    List.Sublist (mapDelete m k) m := by
  induction m with
  | nil => simp [mapDelete]
  | cons p rest ih =>
    obtain ⟨k₀, v₀⟩ := p
    by_cases hk : k₀ = k
    · simp only [mapDelete, hk, if_pos rfl]
      exact List.sublist_cons_self _ _
    · simp only [mapDelete, hk, if_false]
      exact ih.cons₂ _

theorem nodup_keys_mapDelete (m : List (κ × β)) (k : κ)
    (h : (m.map Prod.fst).Nodup) : ((mapDelete m k).map Prod.fst).Nodup :=
  List.Nodup.sublist (List.Sublist.map Prod.fst (mapDelete_sublist m k)) h

end MapLemmas

/-!
### `AdvancedLRUCache` (src/analytics.js lines 748–849)

High-performance LRU cache with TTL.  `hitRatio` (a float produced by
`toFixed`) and `estimateMemoryUsage` (a `JSON.stringify` byte count) are
the only members not carried over, since they are floating-point/JSON
formatting; no claim mentions them.
-/

structure AdvancedLRUCache (V : Type) where
  maxSize : Nat
  defaultTTL : Nat
  cache : List (String × V)
  accessOrder : List (String × Nat)
  expiryTimes : List (String × Nat)
  hitCount : Nat
  missCount : Nat

namespace AdvancedLRUCache

/-- `new AdvancedLRUCache(maxSize, defaultTTL)`. -/
def new (maxSize defaultTTL : Nat) : AdvancedLRUCache V :=
  ⟨maxSize, defaultTTL, [], [], [], 0, 0⟩

/-- `delete(key)`. -/
def delete (c : AdvancedLRUCache V) (key : String) : AdvancedLRUCache V :=
  { c with
    cache := mapDelete c.cache key
    accessOrder := mapDelete c.accessOrder key
    expiryTimes := mapDelete c.expiryTimes key }

/-- `get(key)`, with `Date.now()` passed as `now`.  Returns the value (or
`none`) together with the updated cache state.  Note the source guards the
expiry branch with `if (expiry && now > expiry)`: an expiry timestamp of
`0` is falsy and is therefore never treated as expired. -/
def get (c : AdvancedLRUCache V) (key : String) (now : Nat) :
    Option V × AdvancedLRUCache V :=
  let expired :=
    match mapGet c.expiryTimes key with
    | some e => decide (e ≠ 0) && decide (now > e)
    | none => false
  if expired then
    (none, { c.delete key with missCount := c.missCount + 1 })
  else if mapHas c.cache key then
    (mapGet c.cache key,
      { c with
        accessOrder := mapSet c.accessOrder key now
        hitCount := c.hitCount + 1 })
  else
    (none, { c with missCount := c.missCount + 1 })

/-- The scan loop of `evictLRU()`: `accessOrder` (a `Map`, iterated in
insertion order) is scanned keeping the strictly smallest timestamp, so
ties keep the first-registered key.  `none` plays `oldestKey = null`;
the first entry always replaces it since every time is `< Infinity`. -/
def oldestEntry (accessOrder : List (String × Nat)) : Option (String × Nat) :=
  accessOrder.foldl
    (fun acc kt =>
      match acc with
      | none => some kt
      | some (k₀, t₀) => if kt.2 < t₀ then some kt else some (k₀, t₀))
    none

/-- `evictLRU()`.  The final `if (oldestKey)` is a JS truthiness check:
it is false not only for the initial `null` but also for the empty
string, in which case nothing is evicted. -/
def evictLRU (c : AdvancedLRUCache V) : AdvancedLRUCache V :=
  match oldestEntry c.accessOrder with
  | some (k, _) => if k = "" then c else c.delete k
  | none => c

/-- The `ttl || this.defaultTTL` computation in `set`: both `null` and
`0` are falsy in JS and fall back to the default TTL. -/
def actualTTL (c : AdvancedLRUCache V) (ttl : Option Nat) : Nat :=
  match ttl with
  | some t => if t = 0 then c.defaultTTL else t
  | none => c.defaultTTL

/-- `set(key, value, ttl)`, with `Date.now()` passed as `now`. -/
def set (c : AdvancedLRUCache V) (key : String) (value : V)
    (ttl : Option Nat) (now : Nat) : AdvancedLRUCache V :=
  let actualTTL := c.actualTTL ttl
  let c₁ :=
    if decide (c.cache.length ≥ c.maxSize) && !(mapHas c.cache key) then
      c.evictLRU
    else c
  { c₁ with
    cache := mapSet c₁.cache key value
    accessOrder := mapSet c₁.accessOrder key now
    expiryTimes := mapSet c₁.expiryTimes key (now + actualTTL) }

/-- The statable fields of `getStats()` (`hitRatio`/`memoryUsage` are
float/JSON formatting of the same counters). -/
structure Stats where
  size : Nat
  maxSize : Nat
  hitCount : Nat
  missCount : Nat
deriving DecidableEq

/-- `getStats()`. -/
def getStats (c : AdvancedLRUCache V) : Stats :=
  ⟨c.cache.length, c.maxSize, c.hitCount, c.missCount⟩

/-- `clear()`. -/
def clear (c : AdvancedLRUCache V) : AdvancedLRUCache V :=
  { c with
    cache := []
    accessOrder := []
    expiryTimes := []
    hitCount := 0
    missCount := 0 }

end AdvancedLRUCache

/-!
### Claims about `AdvancedLRUCache`
-/

/-- A capacity-1 cache after `set('', 7)` then `set('x', 8)` (at times
1 and 2): the failing input for the capacity invariant. -/
def lruEmptyKeyRun : AdvancedLRUCache Nat :=
  ((AdvancedLRUCache.new 1 300000).set "" 7 none 1).set "x" 8 none 2

/-- C2: the claimed invariant `size ≤ maxSize` after every `set` is
violated by the code: with capacity 1, after `set('', 7)` and
`set('x', 8)` the cache holds 2 entries.  `evictLRU` finds the
least-recently-used key `''` but its final `if (oldestKey)` truthiness
guard is false for the empty string, so nothing is evicted before the
insertion. -/
theorem lru_capacity_violated_at_empty_key :
    (lruEmptyKeyRun.getStats).size = 2 ∧ lruEmptyKeyRun.maxSize = 1 := by
  decide

/-- The capacity-1 cache holding only the empty-string key. -/
def lruFullWithEmptyKey : AdvancedLRUCache Nat :=
  (AdvancedLRUCache.new 1 300000).set "" 7 none 1

/-- C3: the claim that a `set` of a fresh key on a full cache evicts
exactly one entry (the least-recently-used one; in the N+1-distinct-sets
scenario the first-inserted key) fails: when the entry to evict has the
empty string as its key, `evictLRU`'s `if (oldestKey)` truthiness guard
skips the deletion, zero entries are evicted, and the first-inserted key
survives alongside the new one. -/
theorem lru_evicts_nothing_at_empty_key :
    lruFullWithEmptyKey.cache.length = lruFullWithEmptyKey.maxSize ∧
    mapHas lruFullWithEmptyKey.cache "x" = false ∧
    ((lruFullWithEmptyKey.set "x" 8 none 2).cache.map Prod.fst = ["", "x"]) := by
  decide

/-- C10: a `set` with TTL argument `0` (or `null`) stores the entry with
the default TTL — `ttl || this.defaultTTL` treats `0` as absent — so the
resulting expiry time is `now + defaultTTL` and the whole resulting state
is identical to a `set` with no TTL argument. -/
theorem set_ttl_zero_uses_defaultTTL (c : AdvancedLRUCache V) (k : String)
    (v : V) (now : Nat) :
    c.set k v (some 0) now = c.set k v none now ∧
    mapGet (c.set k v (some 0) now).expiryTimes k =
      some (now + c.defaultTTL) := by
  refine ⟨rfl, ?_⟩
  simp only [AdvancedLRUCache.set, AdvancedLRUCache.actualTTL, if_pos rfl]
  exact mapGet_mapSet_self _ _ _

/-- `evictLRU` only ever deletes, so distinctness of the cache's keys is
preserved. -/
theorem nodup_keys_evictLRU (c : AdvancedLRUCache V)
    (h : (c.cache.map Prod.fst).Nodup) :
    ((c.evictLRU).cache.map Prod.fst).Nodup := by
  unfold AdvancedLRUCache.evictLRU
  split
  · split
    · exact h
    · exact nodup_keys_mapDelete _ _ h
  · exact h

/-- Distinctness of the cache's keys is preserved by `set`. -/
theorem nodup_keys_set (c : AdvancedLRUCache V) (k : String) (v : V)
    (ttl : Option Nat) (now : Nat) (h : (c.cache.map Prod.fst).Nodup) :
    ((c.set k v ttl now).cache.map Prod.fst).Nodup := by
  simp only [AdvancedLRUCache.set]
  apply nodup_keys_mapSet
  split
  · exact nodup_keys_evictLRU c h
  · exact h

/-- `get` on a key whose stored (truthy) expiry has passed: the entry is
deleted and a miss is counted. -/
theorem get_of_expired (c : AdvancedLRUCache V) (k : String) (now e : Nat)
    (h : mapGet c.expiryTimes k = some e) (h0 : e ≠ 0) (hgt : now > e) :
    c.get k now = (none, { c.delete k with missCount := c.missCount + 1 }) := by
  unfold AdvancedLRUCache.get
  rw [h]
  simp [h0, hgt]

/-- `get` on a present key whose expiry has not passed: the value is
returned, a hit is counted, and the access timestamp is refreshed. -/
theorem get_of_live (c : AdvancedLRUCache V) (k : String) (now e : Nat)
    (h : mapGet c.expiryTimes k = some e) (hle : now ≤ e)
    (hhas : mapHas c.cache k = true) :
    c.get k now =
      (mapGet c.cache k,
        { c with
          accessOrder := mapSet c.accessOrder k now
          hitCount := c.hitCount + 1 }) := by
  unfold AdvancedLRUCache.get
  rw [h]
  have hngt : ¬ now > e := by omega
  simp [hngt, hhas]

/-- C4: after `set(k, v, ttl)` at time `now₁ > 0`, a `get(k)` at a time
strictly more than the effective TTL later returns `null`, removes the
entry (the cache no longer holds `k` and `getStats().size` drops by one)
and counts a miss; a `get(k)` at or before the expiry time returns the
stored value, counts a hit, and refreshes the key's last-access
timestamp (marking it most-recently-used).  The positivity of `now₁`
reflects that `Date.now()` is positive (an expiry timestamp of `0` would
be falsy in the source's `if (expiry && ...)` check); the key-uniqueness
hypothesis is the `Map` invariant of the cache field. -/
theorem get_after_set_ttl_expiry (c : AdvancedLRUCache V) (k : String)
    (v : V) (ttl : Option Nat) (now₁ now₂ : Nat) (hpos : 0 < now₁)
    (hnodup : (c.cache.map Prod.fst).Nodup) :
    (now₁ + c.actualTTL ttl < now₂ →
      ((c.set k v ttl now₁).get k now₂).1 = none ∧
      mapGet ((c.set k v ttl now₁).get k now₂).2.cache k = none ∧
      (((c.set k v ttl now₁).get k now₂).2.getStats).size =
        ((c.set k v ttl now₁).getStats).size - 1 ∧
      ((c.set k v ttl now₁).get k now₂).2.missCount =
        (c.set k v ttl now₁).missCount + 1) ∧
    (now₂ ≤ now₁ + c.actualTTL ttl →
      ((c.set k v ttl now₁).get k now₂).1 = some v ∧
      ((c.set k v ttl now₁).get k now₂).2.hitCount =
        (c.set k v ttl now₁).hitCount + 1 ∧
      mapGet ((c.set k v ttl now₁).get k now₂).2.accessOrder k =
        some now₂) := by
  set t := c.actualTTL ttl with ht
  have hexp : mapGet (c.set k v ttl now₁).expiryTimes k = some (now₁ + t) := by
    simp only [AdvancedLRUCache.set, ← ht]
    exact mapGet_mapSet_self _ _ _
  have hhas : mapHas (c.set k v ttl now₁).cache k = true := by
    simp only [AdvancedLRUCache.set]
    exact mapHas_mapSet_self _ _ _
  have hval : mapGet (c.set k v ttl now₁).cache k = some v := by
    simp only [AdvancedLRUCache.set]
    exact mapGet_mapSet_self _ _ _
  have hnodup₁ : ((c.set k v ttl now₁).cache.map Prod.fst).Nodup :=
    nodup_keys_set c k v ttl now₁ hnodup
  constructor
  · intro hlate
    have hget := get_of_expired (c.set k v ttl now₁) k now₂ (now₁ + t) hexp
      (by omega) (by omega)
    rw [hget]
    refine ⟨rfl, ?_, ?_, rfl⟩
    · exact mapGet_mapDelete_self _ _ hnodup₁
    · simp only [AdvancedLRUCache.delete, AdvancedLRUCache.getStats]
      exact length_mapDelete_of_mapHas _ _ hhas
  · intro hearly
    have hget := get_of_live (c.set k v ttl now₁) k now₂ (now₁ + t) hexp
      hearly hhas
    rw [hget, hval]
    exact ⟨rfl, rfl, mapGet_mapSet_self _ _ _⟩

/-- Witness for C4 at a concrete input: key `a` set at time 1 with TTL
10 is absent at time 20 and present (value 3) at time 5. -/
theorem get_after_set_ttl_expiry_witness :
    ((((AdvancedLRUCache.new 5 100 (V := Nat)).set "a" 3 (some 10) 1).get
        "a" 20).1 = none) ∧
    ((((AdvancedLRUCache.new 5 100 (V := Nat)).set "a" 3 (some 10) 1).get
        "a" 5).1 = some 3) :=
  ⟨((get_after_set_ttl_expiry (AdvancedLRUCache.new 5 100) "a" 3 (some 10) 1 20
      (by decide) (by decide)).1 (by decide)).1,
    ((get_after_set_ttl_expiry (AdvancedLRUCache.new 5 100) "a" 3 (some 10) 1 5
      (by decide) (by decide)).2 (by decide)).1⟩

/-!
### `BloomFilter` (src/analytics.js lines 852–909)

The bit array (`Uint8Array`) is a function from byte index to byte
value; a write truncates modulo 256 as a typed array does.  The
constructor sizes the array with `Math.ceil(-n·log(p)/log(2)²)`;
the float arithmetic is modelled over `ℚ` with `Math.log` an arbitrary
function parameter (exact-real logarithms are not rational, and no claim
depends on their values), and `Math.ceil` is `Int.ceil`.  `new
Uint8Array(len)` throws a `RangeError` for a negative length, which is
the constructor's only failure mode; the model returns `Except`.
Infinite/NaN parameter values (`falsePositiveRate ≤ 0`) are outside the
rational model.
-/

/-- JS 32-bit signed integer conversion (the effect of `| 0`, `<< `, and
`& 0xffffffff` on a number). -/
def toInt32 (n : Int) : Int := (n + 2 ^ 31) % 2 ^ 32 - 2 ^ 31

/-- The string hash loop of `BloomFilter.hash`:
`hash = ((hash << 5) - hash + str.charCodeAt(i)) & 0xffffffff`, starting
from `seed`.  (`Char.toNat` stands for `charCodeAt`; they agree on the
basic multilingual plane.) -/
def jsStringHash (s : String) (seed : Nat) : Int :=
  s.data.foldl (fun h c => toInt32 (toInt32 (h * 32) - h + c.toNat)) seed

structure BloomFilter where
  expectedItems : ℚ
  falsePositiveRate : ℚ
  bitArraySize : Nat
  hashFunctions : Nat
  bitArray : Nat → Nat
  itemCount : Nat

namespace BloomFilter

/-- `hash(item, seed)`: `Math.abs(hash) % this.bitArraySize`. -/
def hash (f : BloomFilter) (item : String) (seed : Nat) : Nat :=
  (jsStringHash item seed).natAbs % f.bitArraySize

/-- `add(item)`: sets the derived bit for each of the `hashFunctions`
seeds and bumps the item counter. -/
def add (f : BloomFilter) (item : String) : BloomFilter :=
  { f with
    bitArray :=
      (List.range f.hashFunctions).foldl
        (fun arr i =>
          let index := f.hash item i
          let byteIndex := index / 8
          let bitIndex := index % 8
          fun b =>
            if b = byteIndex then (Nat.lor (arr b) (1 <<< bitIndex)) % 256
            else arr b)
        f.bitArray
    itemCount := f.itemCount + 1 }

/-- `contains(item)`: false as soon as one derived bit is unset, true
otherwise (a possible false positive). -/
def contains (f : BloomFilter) (item : String) : Bool :=
  (List.range f.hashFunctions).all fun i =>
    let index := f.hash item i
    let byteIndex := index / 8
    let bitIndex := index % 8
    Nat.land (f.bitArray byteIndex) (1 <<< bitIndex) != 0

/-- `Math.ceil(-expectedItems * Math.log(falsePositiveRate) / (Math.log(2) ** 2))`. -/
def constructBitArraySize (log : ℚ → ℚ) (expectedItems falsePositiveRate : ℚ) : ℤ :=
  ⌈-expectedItems * log falsePositiveRate / (log 2) ^ 2⌉

/-- `Math.ceil(this.bitArraySize * Math.log(2) / expectedItems)`. -/
def constructHashFunctions (log : ℚ → ℚ) (expectedItems falsePositiveRate : ℚ) : ℤ :=
  ⌈(constructBitArraySize log expectedItems falsePositiveRate : ℚ) * log 2 /
    expectedItems⌉

/-- `Math.ceil(this.bitArraySize / 8)`, the `Uint8Array` length. -/
def constructByteLength (log : ℚ → ℚ) (expectedItems falsePositiveRate : ℚ) : ℤ :=
  ⌈(constructBitArraySize log expectedItems falsePositiveRate : ℚ) / 8⌉

/-- `new BloomFilter(expectedItems, falsePositiveRate)`.  The body has no
parameter validation; the only statement that can throw is
`new Uint8Array(Math.ceil(this.bitArraySize / 8))`, which raises a
`RangeError` when the computed length is negative. -/
def construct (log : ℚ → ℚ) (expectedItems falsePositiveRate : ℚ) :
    Except String BloomFilter :=
  if constructByteLength log expectedItems falsePositiveRate < 0 then
    Except.error "RangeError: Invalid typed array length"
  else
    Except.ok
      { expectedItems := expectedItems
        falsePositiveRate := falsePositiveRate
        bitArraySize := (constructBitArraySize log expectedItems falsePositiveRate).toNat
        hashFunctions := (constructHashFunctions log expectedItems falsePositiveRate).toNat
        bitArray := fun _ => 0
        itemCount := 0 }

end BloomFilter

theorem testBit_nat_lor (a b i : Nat) :
    (Nat.lor a b).testBit i = (a.testBit i || b.testBit i) :=
  Nat.testBit_lor a b i

theorem land_one_shiftLeft_bne_zero (x j : Nat) :
    (Nat.land x (1 <<< j) != 0) = x.testBit j := by
  have h : Nat.land x (1 <<< j) = x &&& 2 ^ j := by
    rw [Nat.one_shiftLeft]; rfl
  rw [h, Nat.and_two_pow]
  cases hb : x.testBit j <;> simp [hb, (Nat.two_pow_pos j).ne']

/-- `contains` in terms of individual bits. -/
theorem contains_eq_true_iff (f : BloomFilter) (x : String) :
    f.contains x = true ↔
      ∀ i < f.hashFunctions,
        (f.bitArray (f.hash x i / 8)).testBit (f.hash x i % 8) = true := by
  simp only [BloomFilter.contains, List.all_eq_true, List.mem_range,
    land_one_shiftLeft_bne_zero]

/-- One step of the bit-setting loop preserves every already-set low bit. -/
theorem testBit_setStep (arr : Nat → Nat) (idx b j : Nat) (hj : j < 8)
    (h : (arr b).testBit j = true) :
    ((fun b₀ =>
        if b₀ = idx / 8 then (Nat.lor (arr b₀) (1 <<< (idx % 8))) % 256
        else arr b₀) b).testBit j = true := by
  by_cases hb : b = idx / 8
  · subst hb
    dsimp only
    rw [if_pos rfl, show (256 : Nat) = 2 ^ 8 from rfl, Nat.testBit_mod_two_pow,
      testBit_nat_lor, h]
    simp [hj]
  · simpa [hb] using h

/-- The bit-setting loop of `add` preserves every already-set low bit. -/
theorem testBit_addLoop_preserved (f : BloomFilter) (x : String)
    (l : List Nat) (arr : Nat → Nat) (b j : Nat) (hj : j < 8)
    (h : (arr b).testBit j = true) :
    ((l.foldl
        (fun arr i =>
          let index := f.hash x i
          let byteIndex := index / 8
          let bitIndex := index % 8
          fun b₀ =>
            if b₀ = byteIndex then (Nat.lor (arr b₀) (1 <<< bitIndex)) % 256
            else arr b₀)
        arr) b).testBit j = true := by
  induction l generalizing arr with
  | nil => simpa using h
  | cons a rest ih =>
    simp only [List.foldl_cons]
    exact ih _ (testBit_setStep arr (f.hash x a) b j hj h)

/-- After the bit-setting loop of `add`, the bit of every processed seed
is set. -/
theorem testBit_addLoop_self (f : BloomFilter) (x : String)
    (l : List Nat) (arr : Nat → Nat) (i : Nat) (hi : i ∈ l) :
    ((l.foldl
        (fun arr i =>
          let index := f.hash x i
          let byteIndex := index / 8
          let bitIndex := index % 8
          fun b₀ =>
            if b₀ = byteIndex then (Nat.lor (arr b₀) (1 <<< bitIndex)) % 256
            else arr b₀)
        arr) (f.hash x i / 8)).testBit (f.hash x i % 8) = true := by
  induction l generalizing arr with
  | nil => simp at hi
  | cons a rest ih =>
    simp only [List.foldl_cons]
    rcases List.mem_cons.mp hi with hia | hirest
    · subst hia
      apply testBit_addLoop_preserved f x rest _ _ _ (Nat.mod_lt _ (by norm_num))
      have hm : f.hash x i % 8 < 8 := Nat.mod_lt _ (by norm_num)
      rw [if_pos rfl, show (256 : Nat) = 2 ^ 8 from rfl, Nat.testBit_mod_two_pow,
        testBit_nat_lor, Nat.one_shiftLeft]
      simp [Nat.testBit_two_pow_self, hm]
    · exact ih _ hirest

/-- `add` does not change the derived hash positions and never clears a
set low bit. -/
theorem contains_mono_add (f : BloomFilter) (x y : String)
    (h : f.contains x = true) : (f.add y).contains x = true := by
  rw [contains_eq_true_iff] at h ⊢
  intro i hi
  exact testBit_addLoop_preserved f y _ _ _ _ (Nat.mod_lt _ (by norm_num))
    (h i hi)

/-- `contains` holds right after `add` of the same item. -/
theorem contains_add_self (f : BloomFilter) (x : String) :
    (f.add x).contains x = true := by
  rw [contains_eq_true_iff]
  intro i hi
  exact testBit_addLoop_self f x _ _ i (List.mem_range.mpr hi)

/-- `contains` survives any later sequence of `add`s. -/
theorem contains_foldl_add (f : BloomFilter) (x : String) (l : List String)
    (h : f.contains x = true) : (l.foldl BloomFilter.add f).contains x = true := by
  induction l generalizing f with
  | nil => simpa using h
  | cons a rest ih =>
    simp only [List.foldl_cons]
    exact ih _ (contains_mono_add f x a h)

/-- C5: the membership filter has no false negatives — after any
sequence of `add` calls starting from any filter state, `contains`
returns true for every item that was added; and `contains` returns false
only when at least one of the `hashFunctions` derived bit positions for
the item is unset. -/
theorem bloom_contains_complete :
    (∀ (f : BloomFilter) (items : List String) (x : String), x ∈ items →
      (items.foldl BloomFilter.add f).contains x = true) ∧
    (∀ (f : BloomFilter) (x : String), f.contains x = false →
      ∃ i, i < f.hashFunctions ∧
        (f.bitArray (f.hash x i / 8)).testBit (f.hash x i % 8) = false) := by
  constructor
  · intro f items x hx
    induction items generalizing f with
    | nil => simp at hx
    | cons a rest ih =>
      simp only [List.foldl_cons]
      rcases List.mem_cons.mp hx with hxa | hxrest
      · subst hxa
        exact contains_foldl_add _ x rest (contains_add_self f x)
      · exact ih _ hxrest
  · intro f x h
    by_contra hc
    push_neg at hc
    suffices hall : f.contains x = true by rw [hall] at h; cases h
    rw [contains_eq_true_iff]
    intro i hi
    have := hc i hi
    cases hb : (f.bitArray (f.hash x i / 8)).testBit (f.hash x i % 8)
    · exact absurd hb this
    · rfl

/-- A small concrete filter state for the witness. -/
def bloomWitnessFilter : BloomFilter :=
  { expectedItems := 10
    falsePositiveRate := 1 / 100
    bitArraySize := 96
    hashFunctions := 7
    bitArray := fun _ => 0
    itemCount := 0 }

/-- Witness for C5 at a concrete input: adding `rust` then `go` makes
`contains('go')` true, and on the empty filter `contains('go')` is false
with an unset derived bit. -/
theorem bloom_contains_complete_witness :
    ("go" ∈ ["rust", "go"] ∧
      ((["rust", "go"].foldl BloomFilter.add bloomWitnessFilter).contains
        "go" = true)) ∧
    (bloomWitnessFilter.contains "go" = false ∧
      ∃ i, i < bloomWitnessFilter.hashFunctions ∧
        (bloomWitnessFilter.bitArray
          (bloomWitnessFilter.hash "go" i / 8)).testBit
          (bloomWitnessFilter.hash "go" i % 8) = false) :=
  ⟨⟨by decide,
      bloom_contains_complete.1 bloomWitnessFilter ["rust", "go"] "go"
        (by decide)⟩,
    ⟨by decide,
      bloom_contains_complete.2 bloomWitnessFilter "go" (by decide)⟩⟩

/-- A stand-in for `Math.log`; the construction claims below hold for
every choice of logarithm function, see
`bloom_construct_no_parameter_validation`. -/
def logStandIn : ℚ → ℚ := fun q => q - 1

/-- C7 counterexample: constructing the filter with `expectedItems = 0`
(an invalid value per the claim, `expectedItems ≤ 0`) and
`falsePositiveRate = 0.01` succeeds — the constructor performs no
parameter validation.  (`-0 · log p = 0`, so the computed sizes are `0`
whatever `Math.log` returns, and a zero-length `Uint8Array` is legal.) -/
theorem bloom_construct_accepts_zero_expectedItems :
    ((0 : ℚ) ≤ 0) ∧
      (BloomFilter.construct logStandIn 0 (1 / 100)).isOk = true := by
  constructor
  · exact le_refl 0
  · simp [BloomFilter.construct, BloomFilter.constructByteLength,
      BloomFilter.constructBitArraySize, Except.isOk, Except.toBool]

/-- C7 amended: the constructor performs no parameter validation at all;
for any logarithm function it succeeds at `expectedItems = 0`, and in
general it fails (with the `RangeError` thrown by `new Uint8Array`) if
and only if the computed byte length of the bit array is negative. -/
theorem bloom_construct_no_parameter_validation :
    (∀ log : ℚ → ℚ, (BloomFilter.construct log 0 (1 / 100)).isOk = true) ∧
    (∀ (log : ℚ → ℚ) (n p : ℚ),
      (BloomFilter.construct log n p).isOk = true ↔
        0 ≤ BloomFilter.constructByteLength log n p) := by
  constructor
  · intro log
    simp [BloomFilter.construct, BloomFilter.constructByteLength,
      BloomFilter.constructBitArraySize, Except.isOk, Except.toBool]
  · intro log n p
    simp only [BloomFilter.construct]
    split
    · simpa [Except.isOk, Except.toBool] using by omega
    · simpa [Except.isOk, Except.toBool] using by omega

/-!
### `Trie` (src/analytics.js lines 973–1054)

Words are `List Char`; `String.prototype.toLowerCase` is modelled
character-wise on ASCII (non-ASCII characters pass through — the claims
depend only on both `insert` and `search` applying the same lowering).
A `TrieNode`'s `children` `Map` is an insertion-ordered association
list, as before.  `Array.prototype.sort` with comparator
`(a, b) => b.frequency - a.frequency` is a stable sort by descending
frequency (ECMA-262 requires sort stability, and a stable sort is
uniquely determined by the preorder), modelled by `List.insertionSort`
with the relation `freqGe`.
-/

/-- Character-wise `toLowerCase` (ASCII). -/
def toLowerChar (c : Char) : Char :=
  if 'A' ≤ c ∧ c ≤ 'Z' then Char.ofNat (c.toNat + 32) else c

/-- `word.toLowerCase()`. -/
def toLowerWord (w : List Char) : List Char := w.map toLowerChar

inductive TrieNode (α : Type) where
  | mk (children : List (Char × TrieNode α)) (isEndOfWord : Bool)
      (data : Option α) (frequency : Nat)

namespace TrieNode

def children : TrieNode α → List (Char × TrieNode α)
  | mk cs _ _ _ => cs

def isEndOfWord : TrieNode α → Bool
  | mk _ e _ _ => e

def data : TrieNode α → Option α
  | mk _ _ d _ => d

def frequency : TrieNode α → Nat
  | mk _ _ _ f => f

/-- `new TrieNode()`. -/
def new : TrieNode α := mk [] false none 0

end TrieNode

/-- The walk of `Trie.insert` from a given node (word already
lowercased).  Besides the updated node it returns whether the final node
was previously not a word end (the condition under which the source
increments `wordCount`). -/
def insertAux : TrieNode α → List Char → Option α → TrieNode α × Bool
  | TrieNode.mk cs e _ f, [], d => (TrieNode.mk cs true d (f + 1), !e)
  | TrieNode.mk cs e d₀ f, c :: rest, d =>
    let child := (mapGet cs c).getD TrieNode.new
    let r := insertAux child rest d
    (TrieNode.mk (mapSet cs c r.1) e d₀ f, r.2)

/-- The walk of `Trie.searchNode` from a given node (word already
lowercased). -/
def searchNodeAux : TrieNode α → List Char → Option (TrieNode α)
  | n, [] => some n
  | TrieNode.mk cs _ _ _, c :: rest =>
    match mapGet cs c with
    | some child => searchNodeAux child rest
    | none => none

structure Trie (α : Type) where
  root : TrieNode α
  wordCount : Nat

/-- An element of the `results` array built by `dfsCollectWords`. -/
structure TrieResult (α : Type) where
  word : List Char
  data : Option α
  frequency : Nat

namespace Trie

/-- `new Trie()`. -/
def new : Trie α := ⟨TrieNode.new, 0⟩

/-- `insert(word, data = null)`. -/
def insert (t : Trie α) (word : List Char) (data : Option α) : Trie α :=
  let r := insertAux t.root (toLowerWord word) data
  ⟨r.1, t.wordCount + (if r.2 then 1 else 0)⟩

/-- `searchNode(word)`. -/
def searchNode (t : Trie α) (word : List Char) : Option (TrieNode α) :=
  searchNodeAux t.root (toLowerWord word)

/-- `search(word)`: `node && node.isEndOfWord ? node.data : null`. -/
def search (t : Trie α) (word : List Char) : Option α :=
  match t.searchNode word with
  | some n => if n.isEndOfWord then n.data else none
  | none => none

end Trie

mutual

/-- `dfsCollectWords(node, currentWord, results, limit)`: collects
terminal words in DFS pre-order, but bails out as soon as `results` has
reached `limit` entries. -/
def dfsCollectWords (node : TrieNode α) (currentWord : List Char)
    (results : List (TrieResult α)) (limit : Nat) : List (TrieResult α) :=
  if results.length ≥ limit then results
  else
    match node with
    | TrieNode.mk cs e d f =>
      dfsChildren cs currentWord
        (if e then results ++ [⟨currentWord, d, f⟩] else results) limit

/-- The `for (const [char, childNode] of node.children)` loop inside
`dfsCollectWords`, with its `results.length < limit` guard. -/
def dfsChildren (cs : List (Char × TrieNode α)) (currentWord : List Char)
    (results : List (TrieResult α)) (limit : Nat) : List (TrieResult α) :=
  match cs with
  | [] => results
  | (c, child) :: rest =>
    dfsChildren rest currentWord
      (if results.length < limit then
        dfsCollectWords child (currentWord ++ [c]) results limit
      else results) limit

end

/-- The comparator `(a, b) => b.frequency - a.frequency` as a preorder:
`a` may come before `b` iff `a`'s frequency is at least `b`'s. -/
def freqGe (a b : TrieResult α) : Prop := b.frequency ≤ a.frequency

instance : DecidableRel (freqGe (α := α)) := fun _ _ => Nat.decLe _ _

instance : IsTotal (TrieResult α) freqGe :=
  ⟨fun a b => le_total b.frequency a.frequency⟩

instance : IsTrans (TrieResult α) freqGe :=
  ⟨fun _ _ _ h₁ h₂ => le_trans h₂ h₁⟩

/-- `startsWith(prefix, limit)`. -/
def Trie.startsWith (t : Trie α) (p : List Char) (limit : Nat) :
    List (TrieResult α) :=
  match t.searchNode p with
  | none => []
  | some node =>
    List.insertionSort freqGe (dfsCollectWords node (toLowerWord p) [] limit)

mutual

/-- The exhaustive (un-truncated) DFS collection from a node: every
terminal word of the subtree, in the same pre-order that
`dfsCollectWords` visits. -/
def allWords (node : TrieNode α) (currentWord : List Char) :
    List (TrieResult α) :=
  match node with
  | TrieNode.mk cs e d f =>
    (if e then [⟨currentWord, d, f⟩] else []) ++ allWordsChildren cs currentWord

def allWordsChildren (cs : List (Char × TrieNode α)) (currentWord : List Char) :
    List (TrieResult α) :=
  match cs with
  | [] => []
  | (c, child) :: rest =>
    allWords child (currentWord ++ [c]) ++ allWordsChildren rest currentWord

end

/-- Once `results` is full, the children loop changes nothing. -/
theorem dfsChildren_stops (cs : List (Char × TrieNode α)) (cur : List Char)
    (res : List (TrieResult α)) (lim : Nat) (h : res.length ≥ lim) :
    dfsChildren cs cur res lim = res := by
  induction cs generalizing res with
  | nil => rw [dfsChildren]
  | cons p rest ih =>
    obtain ⟨c, child⟩ := p
    rw [dfsChildren]
    have hng : ¬ res.length < lim := by omega
    simp only [hng, if_false]
    exact ih res h

/-- Once `results` is full, the DFS changes nothing. -/
theorem dfsCollectWords_stops (node : TrieNode α) (cur : List Char)
    (res : List (TrieResult α)) (lim : Nat) (h : res.length ≥ lim) :
    dfsCollectWords node cur res lim = res := by
  cases node with
  | mk cs e d f =>
    rw [dfsCollectWords, if_pos h]

/-- Unfolding equation for the non-full DFS step. -/
theorem dfsCollectWords_step (cs : List (Char × TrieNode α)) (e : Bool)
    (d : Option α) (f : Nat) (cur : List Char) (res : List (TrieResult α))
    (lim : Nat) (h : ¬ res.length ≥ lim) :
    dfsCollectWords (TrieNode.mk cs e d f) cur res lim =
      dfsChildren cs cur (if e then res ++ [⟨cur, d, f⟩] else res) lim := by
  rw [dfsCollectWords, if_neg h]

/-- Unfolding equation for one iteration of the children loop. -/
theorem dfsChildren_step (c : Char) (child : TrieNode α)
    (rest : List (Char × TrieNode α)) (cur : List Char)
    (res : List (TrieResult α)) (lim : Nat) :
    dfsChildren ((c, child) :: rest) cur res lim =
      dfsChildren rest cur
        (if res.length < lim then
          dfsCollectWords child (cur ++ [c]) res lim
        else res) lim := by
  rw [dfsChildren]

/-- The length of the DFS result: the collection fills up to `limit`
entries, or collects the whole subtree if it holds fewer. -/
theorem length_dfsCollectWords (node : TrieNode α) (cur : List Char)
    (res : List (TrieResult α)) (lim : Nat) (h : res.length ≤ lim) :
    (dfsCollectWords node cur res lim).length =
      min lim (res.length + (allWords node cur).length) := by
  refine dfsCollectWords.induct
    (fun node cur res lim => res.length ≤ lim →
      (dfsCollectWords node cur res lim).length =
        min lim (res.length + (allWords node cur).length))
    (fun cs cur res lim => res.length ≤ lim →
      (dfsChildren cs cur res lim).length =
        min lim (res.length + (allWordsChildren cs cur).length))
    ?_ ?_ ?_ ?_ node cur res lim h
  · intro t cur res lim hge hle
    rw [dfsCollectWords_stops t cur res lim hge]
    omega
  · intro cur res lim hnge cs e d f ih hle
    rw [dfsCollectWords_step cs e d f cur res lim hnge]
    simp only [allWords, List.length_append]
    cases e with
    | false =>
      simp only [Bool.false_eq_true, if_false] at ih ⊢
      rw [ih hle]
      simp only [List.length_nil]
      omega
    | true =>
      simp only [if_true] at ih ⊢
      rw [ih (by simp only [List.length_append, List.length_cons,
        List.length_nil]; omega)]
      simp only [List.length_append, List.length_cons, List.length_nil]
      omega
  · intro cur res lim hle
    rw [dfsChildren]
    simp only [allWordsChildren, List.length_nil]
    omega
  · intro cur res lim c child rest ih₁ ih₂ hle
    rw [dfsChildren_step]
    simp only [allWordsChildren, List.length_append]
    by_cases hlt : res.length < lim
    · rw [if_pos hlt] at ih₂ ⊢
      have h₁ := ih₁ hle
      have h₂ := ih₂ (by omega)
      rw [h₂, h₁]
      omega
    · rw [if_neg hlt] at ih₂ ⊢
      have hge : res.length ≥ lim := by omega
      have heq : res.length = lim := by omega
      rw [ih₂ hle]
      omega

/-- The DFS result extends `results` with a prefix (in pre-order) of the
exhaustive collection: truncation only cuts the traversal short, it never
reorders or skips ahead. -/
theorem dfsCollectWords_eq_take (node : TrieNode α) (cur : List Char)
    (res : List (TrieResult α)) (lim : Nat) :
    ∃ m, m ≤ (allWords node cur).length ∧
      dfsCollectWords node cur res lim = res ++ (allWords node cur).take m := by
  refine dfsCollectWords.induct
    (fun node cur res lim =>
      ∃ m, m ≤ (allWords node cur).length ∧
        dfsCollectWords node cur res lim = res ++ (allWords node cur).take m)
    (fun cs cur res lim =>
      ∃ m, m ≤ (allWordsChildren cs cur).length ∧
        dfsChildren cs cur res lim = res ++ (allWordsChildren cs cur).take m)
    ?_ ?_ ?_ ?_ node cur res lim
  · intro t cur res lim hge
    exact ⟨0, Nat.zero_le _, by rw [dfsCollectWords_stops t cur res lim hge]; simp⟩
  · intro cur res lim hnge cs e d f ih
    rw [dfsCollectWords_step cs e d f cur res lim hnge]
    simp only [allWords]
    cases e with
    | false =>
      simp only [Bool.false_eq_true, if_false] at ih ⊢
      obtain ⟨m, hm, heq⟩ := ih
      exact ⟨m, by simpa using hm, by simpa using heq⟩
    | true =>
      simp only [if_true] at ih ⊢
      obtain ⟨m, hm, heq⟩ := ih
      refine ⟨m + 1, by simp; omega, ?_⟩
      rw [heq]
      simp [List.take_succ_cons]
  · intro cur res lim
    exact ⟨0, Nat.zero_le _, by rw [dfsChildren]; simp⟩
  · intro cur res lim c child rest ih₁ ih₂
    rw [dfsChildren_step]
    simp only [allWordsChildren]
    by_cases hlt : res.length < lim
    · rw [if_pos hlt] at ih₂ ⊢
      obtain ⟨m₁, hm₁, heq₁⟩ := ih₁
      by_cases hfull : m₁ = (allWords child (cur ++ [c])).length
      · obtain ⟨m₂, hm₂, heq₂⟩ := ih₂
        refine ⟨m₁ + m₂, by simp only [List.length_append]; omega, ?_⟩
        rw [heq₂, heq₁, hfull, List.take_length,
          List.take_append_eq_append_take,
          show (allWords child (cur ++ [c])).length + m₂ -
            (allWords child (cur ++ [c])).length = m₂ from by omega,
          List.take_of_length_le
            (Nat.le_add_right (allWords child (cur ++ [c])).length m₂),
          List.append_assoc]
      · have hm₁lt : m₁ < (allWords child (cur ++ [c])).length := by omega
        have h₁ : (dfsCollectWords child (cur ++ [c]) res lim).length =
            min lim (res.length + (allWords child (cur ++ [c])).length) :=
          length_dfsCollectWords child (cur ++ [c]) res lim (by omega)
        have h₂ : (dfsCollectWords child (cur ++ [c]) res lim).length =
            res.length + m₁ := by
          rw [heq₁]
          simp only [List.length_append, List.length_take]
          omega
        have hstop : dfsChildren rest cur
            (dfsCollectWords child (cur ++ [c]) res lim) lim =
            dfsCollectWords child (cur ++ [c]) res lim :=
          dfsChildren_stops _ _ _ _ (by omega)
        refine ⟨m₁, by simp only [List.length_append]; omega, ?_⟩
        rw [hstop, heq₁, List.take_append_eq_append_take,
          show m₁ - (allWords child (cur ++ [c])).length = 0 from by omega]
        simp
    · rw [if_neg hlt] at ih₂ ⊢
      have hstop : dfsChildren rest cur res lim = res :=
        dfsChildren_stops _ _ _ _ (by omega)
      exact ⟨0, Nat.zero_le _, by rw [hstop]; simp⟩

/-- Every word below a node's children extends the current word by at
least one character. -/
theorem allWordsChildren_word_shape (cs : List (Char × TrieNode α))
    (cur : List Char) :
    ∀ r ∈ allWordsChildren cs cur, ∃ c s, r.word = cur ++ c :: s := by
  refine allWordsChildren.induct
    (fun node cur => ∀ r ∈ allWords node cur, ∃ s, r.word = cur ++ s)
    (fun cs cur => ∀ r ∈ allWordsChildren cs cur, ∃ c s, r.word = cur ++ c :: s)
    ?_ ?_ ?_ cs cur
  · intro cur cs e d f ih r hr
    rw [allWords] at hr
    rcases List.mem_append.mp hr with hl | hrt
    · refine ⟨[], ?_⟩
      cases e with
      | false => simp at hl
      | true =>
        simp only [if_true, List.mem_singleton] at hl
        subst hl
        simp
    · obtain ⟨c, s, hcs⟩ := ih r hrt
      exact ⟨c :: s, hcs⟩
  · intro cur r hr
    rw [allWordsChildren] at hr
    simp at hr
  · intro cur c child rest ih₁ ih₂ r hr
    rw [allWordsChildren] at hr
    rcases List.mem_append.mp hr with hl | hrt
    · obtain ⟨s, hs⟩ := ih₁ r hl
      refine ⟨c, s, ?_⟩
      simpa using hs
    · exact ih₂ r hrt

/-- The exhaustive collection from a node contains at most one entry
whose word is the current word itself (the node's own terminal entry). -/
theorem countP_allWords_word_self (node : TrieNode α) (cur : List Char) :
    (allWords node cur).countP (fun r => decide (r.word = cur)) ≤ 1 := by
  cases node with
  | mk cs e d f =>
    rw [allWords, List.countP_append]
    have hc : (allWordsChildren cs cur).countP
        (fun r => decide (r.word = cur)) = 0 := by
      rw [List.countP_eq_zero]
      intro r hr
      obtain ⟨c, s, hcs⟩ := allWordsChildren_word_shape cs cur r hr
      simp only [decide_eq_true_eq, hcs]
      intro hcontra
      have := congrArg List.length hcontra
      simp at this
    rw [hc]
    cases e <;> simp

/-- The frequency of the node reached by `w` from `n` (0 when no node is
reachable), the quantity `insert` increments. -/
def wordFrequency (n : TrieNode α) (w : List Char) : Nat :=
  match searchNodeAux n w with
  | some m => m.frequency
  | none => 0

theorem wordFrequency_new (w : List Char) :
    wordFrequency (TrieNode.new (α := α)) w = 0 := by
  cases w with
  | nil => rfl
  | cons c rest =>
    rw [wordFrequency]
    rw [show searchNodeAux (TrieNode.new (α := α)) (c :: rest) = none from rfl]

/-- The node walk of `insert` puts the final node of the (lowercased)
word into terminal state with the stored payload and an incremented
frequency, and `searchNode` finds exactly that node again. -/
theorem searchNodeAux_insertAux (n : TrieNode α) (w : List Char)
    (d : Option α) :
    ∃ m : TrieNode α, searchNodeAux (insertAux n w d).1 w = some m ∧
      m.isEndOfWord = true ∧ m.data = d ∧
      m.frequency = wordFrequency n w + 1 := by
  induction w generalizing n with
  | nil =>
    cases n with
    | mk cs e d₀ f => exact ⟨TrieNode.mk cs true d (f + 1), rfl, rfl, rfl, rfl⟩
  | cons c rest ih =>
    cases n with
    | mk cs e d₀ f =>
      obtain ⟨m, hm, he, hd, hf⟩ := ih ((mapGet cs c).getD TrieNode.new)
      have hwf : wordFrequency (TrieNode.mk cs e d₀ f) (c :: rest) =
          wordFrequency ((mapGet cs c).getD TrieNode.new) rest := by
        rw [wordFrequency, searchNodeAux]
        cases hg : mapGet cs c with
        | some child => rfl
        | none => exact (wordFrequency_new rest).symm
      refine ⟨m, ?_, he, hd, ?_⟩
      · show searchNodeAux
          (TrieNode.mk
            (mapSet cs c (insertAux ((mapGet cs c).getD TrieNode.new) rest d).1)
            e d₀ f) (c :: rest) = some m
        rw [searchNodeAux, mapGet_mapSet_self]
        exact hm
      · rw [hf, hwf]

/-!
### Claims about `Trie`
-/

/-- A trie with `aa` inserted once, then `ab` three times.  Under the
node for `a` the child `a` precedes the child `b` in `Map` insertion
order, so the DFS meets `aa` first. -/
def trieC1 : Trie Nat :=
  (((Trie.new.insert ['a', 'a'] (some 1)).insert
      ['a', 'b'] (some 2)).insert ['a', 'b'] (some 2)).insert
    ['a', 'b'] (some 2)

/-- C1 counterexample: `startsWith('a', 1)` returns the single entry
`aa` with frequency 1, even though `ab` — also reachable by the prefix
`a`, terminal, and of frequency 3 — is the top-1 entry by frequency.
`dfsCollectWords` stops as soon as `results.length >= limit`, so the
subtree is *not* exhaustively collected before truncation. -/
theorem startsWith_truncates_before_collection :
    ((trieC1.startsWith ['a'] 1).map (fun r => (r.word, r.frequency)) =
      [(['a', 'a'], 1)]) ∧
    ((trieC1.searchNode ['a', 'b']).map
      (fun n => (n.isEndOfWord, n.frequency)) = some (true, 3)) :=
  ⟨rfl, rfl⟩

/-- C1 (amended): `startsWith(p, limit)` returns the empty list when no
node is reachable by `p`; otherwise it collects terminal words of the
subtree in DFS pre-order, truncating the traversal as soon as `limit`
entries are collected (not after full collection), and returns the
collected entries stably sorted by frequency descending.  Hence the
output is frequency-sorted, has at most `limit` entries, contains only
words of the subtree, and equals the frequency-sorted exhaustive
collection whenever the subtree holds at most `limit` terminal words. -/
theorem startsWith_sorted_truncated_dfs (t : Trie α) (p : List Char)
    (L : Nat) :
    (t.searchNode p = none → t.startsWith p L = []) ∧
    List.Sorted freqGe (t.startsWith p L) ∧
    (t.startsWith p L).length ≤ L ∧
    (∀ node, t.searchNode p = some node →
      (∀ r ∈ t.startsWith p L, r ∈ allWords node (toLowerWord p)) ∧
      ((allWords node (toLowerWord p)).length ≤ L →
        t.startsWith p L =
          List.insertionSort freqGe (allWords node (toLowerWord p)))) := by
  cases hs : t.searchNode p with
  | none =>
    have hsw : t.startsWith p L = [] := by rw [Trie.startsWith, hs]
    refine ⟨fun _ => hsw, ?_, ?_, ?_⟩
    · rw [hsw]; exact List.sorted_nil
    · rw [hsw]; simp
    · intro node hnode; exact Option.noConfusion hnode
  | some node =>
    have hsw : t.startsWith p L =
        List.insertionSort freqGe
          (dfsCollectWords node (toLowerWord p) [] L) := by
      rw [Trie.startsWith, hs]
    obtain ⟨m, hm, heq⟩ := dfsCollectWords_eq_take node (toLowerWord p) [] L
    simp only [List.nil_append] at heq
    have hperm := List.perm_insertionSort freqGe
      (dfsCollectWords node (toLowerWord p) [] L)
    refine ⟨fun hnone => Option.noConfusion hnone, ?_, ?_, ?_⟩
    · rw [hsw]; exact List.sorted_insertionSort freqGe _
    · rw [hsw, hperm.length_eq,
        length_dfsCollectWords node (toLowerWord p) [] L (by simp)]
      omega
    · intro node₂ hnode₂
      injection hnode₂ with hinj
      subst hinj
      constructor
      · intro r hr
        rw [hsw] at hr
        have hr₂ := hperm.mem_iff.mp hr
        rw [heq] at hr₂
        exact List.take_subset m _ hr₂
      · intro hle
        have hlen₂ : (dfsCollectWords node (toLowerWord p) [] L).length =
            (allWords node (toLowerWord p)).length := by
          rw [length_dfsCollectWords node (toLowerWord p) [] L (by simp)]
          simp only [List.length_nil, Nat.zero_add]
          omega
        have hmfull : m = (allWords node (toLowerWord p)).length := by
          have hcl := congrArg List.length heq
          rw [hlen₂] at hcl
          simp only [List.length_take] at hcl
          omega
        rw [hsw, heq, hmfull, List.take_length]

/-- The spec's own prefix-ordering scenario: `go` twice, then `goal`,
then `rust`. -/
def trieGoWitness : Trie Nat :=
  (((Trie.new.insert ['g', 'o'] (some 1)).insert
      ['g', 'o'] (some 1)).insert ['g', 'o', 'a', 'l'] (some 2)).insert
    ['r', 'u', 's', 't'] (some 3)

/-- Witness for C1 (amended) at a concrete input: with 3 words in the
trie and limit 3, `startsWith('', 3)` is exactly the frequency-sorted
exhaustive collection. -/
theorem startsWith_sorted_truncated_dfs_witness :
    (trieGoWitness.searchNode [] = some trieGoWitness.root) ∧
    (allWords trieGoWitness.root (toLowerWord [])).length ≤ 3 ∧
    trieGoWitness.startsWith [] 3 =
      List.insertionSort freqGe
        (allWords trieGoWitness.root (toLowerWord [])) :=
  ⟨rfl, by decide,
    ((startsWith_sorted_truncated_dfs trieGoWitness [] 3).2.2.2
      trieGoWitness.root rfl).2 (by decide)⟩

/-- C9: `insert(w, p)` followed by `search(w)` returns `p` from any trie
state; inserting the same word twice from an empty trie leaves a single
terminal node of frequency 2; any `startsWith` result mentions the
looked-up word at most once (no duplicate entries); and both `insert`
and `search` lowercase the word first, so lookups are case-insensitive. -/
theorem trie_insert_search_roundtrip :
    (∀ (t : Trie α) (w : List Char) (d : Option α),
      (t.insert w d).search w = d) ∧
    (∀ (w : List Char) (d d₂ : Option α),
      ((((Trie.new (α := α)).insert w d).insert w d₂).searchNode w).map
        (fun n => (n.isEndOfWord, n.frequency)) = some (true, 2)) ∧
    (∀ (t : Trie α) (w : List Char) (L : Nat),
      (t.startsWith w L).countP
        (fun r => decide (r.word = toLowerWord w)) ≤ 1) ∧
    (∀ (t : Trie α) (w₁ w₂ : List Char) (d : Option α),
      toLowerWord w₁ = toLowerWord w₂ →
      t.search w₁ = t.search w₂ ∧ t.insert w₁ d = t.insert w₂ d) := by
  refine ⟨?_, ?_, ?_, ?_⟩
  · intro t w d
    obtain ⟨m, hm, he, hd, _⟩ := searchNodeAux_insertAux t.root
      (toLowerWord w) d
    have hroot : (t.insert w d).root = (insertAux t.root (toLowerWord w) d).1 :=
      rfl
    rw [Trie.search, Trie.searchNode, hroot, hm]
    simp [he, hd]
  · intro w d d₂
    obtain ⟨m₁, hm₁, he₁, hd₁, hf₁⟩ := searchNodeAux_insertAux
      (TrieNode.new (α := α)) (toLowerWord w) d
    obtain ⟨m₂, hm₂, he₂, hd₂, hf₂⟩ := searchNodeAux_insertAux
      ((insertAux (TrieNode.new (α := α)) (toLowerWord w) d).1)
      (toLowerWord w) d₂
    have hfreq₁ : m₁.frequency = 1 := by
      rw [hf₁, wordFrequency_new]
    have hwfr : wordFrequency
        ((insertAux (TrieNode.new (α := α)) (toLowerWord w) d).1)
        (toLowerWord w) = 1 := by
      rw [wordFrequency, hm₁]
      exact hfreq₁
    have hfreq₂ : m₂.frequency = 2 := by
      rw [hf₂, hwfr]
    show (searchNodeAux
      (insertAux ((insertAux (TrieNode.new (α := α)) (toLowerWord w) d).1)
        (toLowerWord w) d₂).1 (toLowerWord w)).map
        (fun n => (n.isEndOfWord, n.frequency)) = some (true, 2)
    rw [hm₂]
    simp [he₂, hfreq₂]
  · intro t w L
    cases hs : t.searchNode w with
    | none =>
      have hsw : t.startsWith w L = [] := by rw [Trie.startsWith, hs]
      rw [hsw]
      simp
    | some node =>
      have hsw : t.startsWith w L =
          List.insertionSort freqGe
            (dfsCollectWords node (toLowerWord w) [] L) := by
        rw [Trie.startsWith, hs]
      obtain ⟨m, hm, heq⟩ := dfsCollectWords_eq_take node (toLowerWord w) [] L
      simp only [List.nil_append] at heq
      rw [hsw,
        (List.perm_insertionSort freqGe _).countP_eq, heq]
      exact le_trans
        ((List.take_sublist m _).countP_le _)
        (countP_allWords_word_self node (toLowerWord w))
  · intro t w₁ w₂ d h
    constructor
    · rw [Trie.search, Trie.search, Trie.searchNode, Trie.searchNode, h]
    · rw [Trie.insert, Trie.insert, h]

/-- Witness for C9 at a concrete input: round trip on the word `Go`,
and case-insensitive lookup (`gO` finds what `Go` stored). -/
theorem trie_insert_search_roundtrip_witness :
    (((Trie.new (α := Nat)).insert ['G', 'o'] (some 5)).search ['G', 'o'] =
      some 5) ∧
    (((Trie.new (α := Nat)).insert ['G', 'o'] (some 5)).search ['g', 'O'] =
      ((Trie.new (α := Nat)).insert ['G', 'o'] (some 5)).search ['G', 'o']) :=
  ⟨trie_insert_search_roundtrip.1 Trie.new ['G', 'o'] (some 5),
    (trie_insert_search_roundtrip.2.2.2
      ((Trie.new (α := Nat)).insert ['G', 'o'] (some 5))
      ['g', 'O'] ['G', 'o'] none (by decide)).1⟩

/-!
### Range queries (`PerformanceEngine.getEntriesInRange` /
`getBatchEntries`, src/analytics.js lines 1248–1320)

Dates are day numbers (`Nat`): `moment.add(1, 'day')` is `+ 1`,
`isSameOrBefore` is `≤`, `end.diff(start, 'days')` is `endDate -
startDate`, and `localeCompare` on ISO `YYYY-MM-DD` strings agrees with
day order.  A fetched journal file is a `StoredEntry` (its `date` field
plus an opaque payload); `getE` abstracts `this.getEntry` as a pure
lookup, which is what the ordering/limit claim observes.  The batched
path issues fetches under a semaphore and pushes each entry as its fetch
completes; the completion order is modelled as an arbitrary list `order`
of dates, universally quantified, and the source's final
`entries.sort((a, b) => a.date.localeCompare(b.date))` is the stable
sort by `dateLe`. -/

structure StoredEntry (α : Type) where
  date : Nat
  payload : α

/-- Comparator `(a, b) => a.date.localeCompare(b.date)` as a preorder. -/
def dateLe (a b : StoredEntry α) : Prop := a.date ≤ b.date

instance : DecidableRel (dateLe (α := α)) := fun _ _ => Nat.decLe _ _

instance : IsTotal (StoredEntry α) dateLe :=
  ⟨fun a b => le_total a.date b.date⟩

instance : IsTrans (StoredEntry α) dateLe :=
  ⟨fun _ _ _ h₁ h₂ => le_trans h₁ h₂⟩

/-- The sequential path of `getEntriesInRange`:
`while (current.isSameOrBefore(end) && entries.length < limit)`,
fetching each day and pushing the entry when present. -/
def getRangeSeqLoop (getE : Nat → Option (StoredEntry α))
    (current endDate limit : Nat) (entries : List (StoredEntry α)) :
    List (StoredEntry α) :=
  if current ≤ endDate ∧ entries.length < limit then
    getRangeSeqLoop getE (current + 1) endDate limit
      (match getE current with
        | some e => entries ++ [e]
        | none => entries)
  else entries
termination_by endDate + 1 - current
decreasing_by omega

/-- The collection loop of `getBatchEntries`: entries are pushed in
completion order (`order`), guarded by `entries.length < limit`. -/
def getBatchEntriesCollect (getE : Nat → Option (StoredEntry α))
    (order : List Nat) (limit : Nat) : List (StoredEntry α) :=
  order.foldl
    (fun entries dateStr =>
      match getE dateStr with
      | some e => if entries.length < limit then entries ++ [e] else entries
      | none => entries)
    []

/-- `getBatchEntries`: collect in completion order, then
`entries.sort((a, b) => a.date.localeCompare(b.date))`. -/
def getBatchEntries (getE : Nat → Option (StoredEntry α))
    (order : List Nat) (limit : Nat) : List (StoredEntry α) :=
  List.insertionSort dateLe (getBatchEntriesCollect getE order limit)

/-- `getEntriesInRange` (the computation on a range-cache miss): ranges
longer than 30 days take the batched path, the rest the sequential
path. -/
def getEntriesInRange (getE : Nat → Option (StoredEntry α))
    (startDate endDate limit : Nat) (order : List Nat) :
    List (StoredEntry α) :=
  if endDate - startDate > 30 then getBatchEntries getE order limit
  else getRangeSeqLoop getE startDate endDate limit []

theorem length_getBatchEntriesCollect_aux
    (getE : Nat → Option (StoredEntry α)) (order : List Nat) (limit : Nat)
    (acc : List (StoredEntry α)) (h : acc.length ≤ limit) :
    (order.foldl
      (fun entries dateStr =>
        match getE dateStr with
        | some e => if entries.length < limit then entries ++ [e] else entries
        | none => entries)
      acc).length ≤ limit := by
  induction order generalizing acc with
  | nil => simpa using h
  | cons a rest ih =>
    simp only [List.foldl_cons]
    apply ih
    cases hg : getE a with
    | some e =>
      by_cases hlt : acc.length < limit
      · simp only [if_pos hlt, List.length_append, List.length_cons,
          List.length_nil]
        omega
      · simp only [if_neg hlt]
        exact h
    | none => simpa using h

/-- The sequential loop preserves sortedness (all collected dates stay
below the cursor), the length bound, and the cursor bound. -/
theorem getRangeSeqLoop_invariant (getE : Nat → Option (StoredEntry α))
    (current endDate limit : Nat) (entries : List (StoredEntry α))
    (hkeyed : ∀ d e, getE d = some e → e.date = d)
    (hsorted : List.Sorted dateLe entries)
    (hbelow : ∀ e ∈ entries, e.date < current)
    (hlen : entries.length ≤ limit) :
    List.Sorted dateLe (getRangeSeqLoop getE current endDate limit entries) ∧
    (getRangeSeqLoop getE current endDate limit entries).length ≤ limit := by
  generalize hfuel : endDate + 1 - current = fuel
  induction fuel generalizing current entries with
  | zero =>
    rw [getRangeSeqLoop]
    have : ¬ (current ≤ endDate ∧ entries.length < limit) := by omega
    rw [if_neg this]
    exact ⟨hsorted, hlen⟩
  | succ n ih =>
    rw [getRangeSeqLoop]
    by_cases hc : current ≤ endDate ∧ entries.length < limit
    · rw [if_pos hc]
      cases hg : getE current with
      | some e =>
        have hdate : e.date = current := hkeyed current e hg
        refine ih (current + 1) (entries ++ [e]) ?_ ?_ ?_ (by omega)
        · rw [List.Sorted, List.pairwise_append]
          refine ⟨hsorted, List.sorted_singleton e, ?_⟩
          intro a ha b hb
          simp only [List.mem_singleton] at hb
          subst hb
          have := hbelow a ha
          simp only [dateLe]
          omega
        · intro x hx
          rcases List.mem_append.mp hx with hxl | hxr
          · have := hbelow x hxl; omega
          · simp only [List.mem_singleton] at hxr
            subst hxr
            omega
        · simp only [List.length_append, List.length_cons, List.length_nil]
          omega
      | none =>
        refine ih (current + 1) entries hsorted ?_ hlen (by omega)
        intro x hx
        have := hbelow x hx
        omega
    · rw [if_neg hc]
      exact ⟨hsorted, hlen⟩

/-- C8: every list produced by `getEntriesInRange` is sorted ascending
by entry date and holds at most `limit` entries — on the dispatcher, on
the sequential path, and on the batched path, the latter for every
completion order of the underlying fetches.  The hypothesis says the
backing store is date-keyed: the entry read for day `d` carries date
`d`. -/
theorem getEntriesInRange_sorted_limited
    (getE : Nat → Option (StoredEntry α)) (startDate endDate limit : Nat)
    (order : List Nat)
    (hkeyed : ∀ d e, getE d = some e → e.date = d) :
    (List.Sorted dateLe (getEntriesInRange getE startDate endDate limit order) ∧
      (getEntriesInRange getE startDate endDate limit order).length ≤ limit) ∧
    (List.Sorted dateLe (getRangeSeqLoop getE startDate endDate limit []) ∧
      (getRangeSeqLoop getE startDate endDate limit []).length ≤ limit) ∧
    (List.Sorted dateLe (getBatchEntries getE order limit) ∧
      (getBatchEntries getE order limit).length ≤ limit) := by
  have hseq := getRangeSeqLoop_invariant getE startDate endDate limit []
    hkeyed (List.sorted_nil) (by intro e he; simp at he) (by simp)
  have hbatch : List.Sorted dateLe (getBatchEntries getE order limit) ∧
      (getBatchEntries getE order limit).length ≤ limit := by
    constructor
    · exact List.sorted_insertionSort dateLe _
    · rw [getBatchEntries, (List.perm_insertionSort dateLe _).length_eq]
      exact length_getBatchEntriesCollect_aux getE order limit [] (by simp)
  refine ⟨?_, hseq, hbatch⟩
  rw [getEntriesInRange]
  by_cases hd : endDate - startDate > 30
  · rw [if_pos hd]; exact hbatch
  · rw [if_neg hd]; exact hseq

/-- Witness for C8 at a concrete input: a store holding an entry for
every day, range 1–5, limit 10, batch completion order `[3, 1, 2]`. -/
theorem getEntriesInRange_sorted_limited_witness :
    List.Sorted dateLe
      (getEntriesInRange (fun d => some (⟨d, 0⟩ : StoredEntry Nat))
        1 5 10 [3, 1, 2]) ∧
    (getEntriesInRange (fun d => some (⟨d, 0⟩ : StoredEntry Nat))
        1 5 10 [3, 1, 2]).length ≤ 10 :=
  (getEntriesInRange_sorted_limited (fun d => some (⟨d, 0⟩ : StoredEntry Nat))
    1 5 10 [3, 1, 2]
    (fun d e h => by injection h with h₁; rw [← h₁])).1

/-!
### `PerformanceEngine` (src/analytics.js lines 1056–1245)

The engine composes the cache, the membership filter, the search trie
and the metrics ring buffer.  Modelling notes:
* `fs.pathExists` / `fs.readJson` are the backing store, abstracted as
  functions of the date (the path `entries/${date}.json` is bijective in
  the date); `readJson` returning `none` covers both a missing file and
  the `catch` around a corrupt one.  Each invocation of either is one
  store call, tallied in `storeCalls`.
* Both `Date.now()` reads inside one engine call are modelled by the
  same `now`, so the recorded `queryTime` is `now - now = 0`; the
  metrics values are otherwise threaded faithfully (`avgQueryTime` is
  exact rational division standing for float division — no claim
  observes it).
* The cache stores both existence booleans (under `entry_exists_` keys)
  and entry objects (under `entry_` keys), so its value type is the sum
  `CacheValue`; `truthy` is JS truthiness of a cached value.
* The engine is taken after `initialize()` (the claims quantify over the
  resulting filter/cache/trie states); `indexTree` (unused by these
  operations) and the `process.memoryUsage` bookkeeping are omitted.
-/

/-- `RingBuffer` (src/analytics.js lines 912–971); the backing `Array`
is a function from slot index to contents. -/
structure RingBuffer (α : Type) where
  size : Nat
  buffer : Nat → Option α
  head : Nat
  tail : Nat
  count : Nat

namespace RingBuffer

/-- `new RingBuffer(size)`. -/
def new (size : Nat) : RingBuffer α := ⟨size, fun _ => none, 0, 0, 0⟩

/-- `push(item)`. -/
def push (rb : RingBuffer α) (item : α) : RingBuffer α :=
  if rb.count < rb.size then
    { rb with
      buffer := fun i => if i = rb.tail then some item else rb.buffer i
      tail := (rb.tail + 1) % rb.size
      count := rb.count + 1 }
  else
    { rb with
      buffer := fun i => if i = rb.tail then some item else rb.buffer i
      tail := (rb.tail + 1) % rb.size
      head := (rb.head + 1) % rb.size }

end RingBuffer

/-- The metric object pushed by `recordQuery` via `addMetric`. -/
structure Metric where
  timestamp : Nat
  type : String
  queryTime : Nat
  avgQueryTime : ℚ

/-- A value stored in the engine's cache: existence flags under
`entry_exists_` keys, entry objects under `entry_` keys. -/
inductive CacheValue (E : Type) where
  | bool (b : Bool)
  | entry (e : E)

/-- JS truthiness of a cached value (an entry object is always truthy). -/
def CacheValue.truthy : CacheValue E → Bool
  | .bool b => b
  | .entry _ => true

/-- One sub-entry of a journal file, as consumed by
`updateSearchIndex`. -/
structure JournalSubEntry where
  technologies : Option (List (List Char))

/-- A journal file's contents. -/
structure JournalEntryData where
  date : String
  entries : Option (List JournalSubEntry)

/-- The payload attached to trie words by the engine. -/
structure IndexPayload where
  type : String
  date : String

/-- `updateSearchIndex(entry)`: index every technology of every
sub-entry. -/
def updateSearchIndex (trie : Trie IndexPayload) (entry : JournalEntryData) :
    Trie IndexPayload :=
  match entry.entries with
  | none => trie
  | some subs =>
    subs.foldl
      (fun tr sub =>
        match sub.technologies with
        | none => tr
        | some techs =>
          techs.foldl
            (fun tr₂ tech =>
              tr₂.insert tech (some ⟨"technology", entry.date⟩))
            tr)
      trie

structure PerformanceEngine where
  cache : AdvancedLRUCache (CacheValue JournalEntryData)
  existsFilter : BloomFilter
  searchTrie : Trie IndexPayload
  metricsBuffer : RingBuffer Metric
  queryCount : Nat
  totalQueryTime : Nat

namespace PerformanceEngine

/-- `addMetric(metric)`. -/
def addMetric (s : PerformanceEngine) (m : Metric) : PerformanceEngine :=
  { s with metricsBuffer := s.metricsBuffer.push m }

/-- `recordQuery(queryTime)`. -/
def recordQuery (s : PerformanceEngine) (queryTime now : Nat) :
    PerformanceEngine :=
  addMetric
    { s with
      queryCount := s.queryCount + 1
      totalQueryTime := s.totalQueryTime + queryTime }
    ⟨now, "query_performance", queryTime,
      ((s.totalQueryTime + queryTime : Nat) : ℚ) / ((s.queryCount + 1 : Nat) : ℚ)⟩

/-- The result of an engine operation: the returned value, the updated
engine state, and how many store (filesystem) calls were made. -/
structure Result (ρ : Type) where
  value : ρ
  state : PerformanceEngine
  storeCalls : Nat

/-- `entryExists(date)`: bloom filter first (definitive negative), then
the cache, then a `fs.pathExists` store call whose result is cached for
5 minutes. -/
def entryExists (pathExists : String → Bool) (s : PerformanceEngine)
    (date : String) (now : Nat) : Result Bool :=
  if s.existsFilter.contains date = false then ⟨false, s, 0⟩
  else
    match (s.cache.get ("entry_exists_" ++ date) now).1 with
    | some v => ⟨v.truthy, { s with cache := (s.cache.get ("entry_exists_" ++ date) now).2 }, 0⟩
    | none =>
      ⟨pathExists date,
        { s with
          cache := ((s.cache.get ("entry_exists_" ++ date) now).2).set
            ("entry_exists_" ++ date) (CacheValue.bool (pathExists date))
            (some 300000) now },
        1⟩

/-- `getEntry(date)`: memory cache, then `entryExists`, then a
`fs.readJson` store call that populates the cache (10 minutes TTL) and
the search index on success; `recordQuery` runs on every path. -/
def getEntry (pathExists : String → Bool)
    (readJson : String → Option JournalEntryData) (s : PerformanceEngine)
    (date : String) (now : Nat) : Result (Option (CacheValue JournalEntryData)) :=
  match (s.cache.get ("entry_" ++ date) now).1 with
  | some entry =>
    ⟨some entry,
      recordQuery { s with cache := (s.cache.get ("entry_" ++ date) now).2 }
        (now - now) now,
      0⟩
  | none =>
    match entryExists pathExists
        { s with cache := (s.cache.get ("entry_" ++ date) now).2 } date now with
    | ⟨ex, s₂, calls⟩ =>
      if ex = false then
        ⟨none, recordQuery s₂ (now - now) now, calls⟩
      else
        match readJson date with
        | some entry =>
          ⟨some (CacheValue.entry entry),
            recordQuery
              { s₂ with
                cache := s₂.cache.set ("entry_" ++ date)
                  (CacheValue.entry entry) (some 600000) now
                searchTrie := updateSearchIndex s₂.searchTrie entry }
              (now - now) now,
            calls + 1⟩
        | none => ⟨none, recordQuery s₂ (now - now) now, calls + 1⟩

end PerformanceEngine

/-!
### Claims about `PerformanceEngine`
-/

/-- An engine whose filter (1 hash function over 8 bits, for a
computable demonstration — the production constructor derives its sizes
with float arithmetic, which changes the collision probability but not
the existence of collisions) has had only the key `a` added.  The keys
`a` (char code 97) and `i` (char code 105) share the derived bit
position `97 % 8 = 105 % 8 = 1`. -/
def engineC6 : PerformanceEngine :=
  { cache := AdvancedLRUCache.new 2000 600000
    existsFilter :=
      BloomFilter.add
        { expectedItems := 50000
          falsePositiveRate := 1 / 1000
          bitArraySize := 8
          hashFunctions := 1
          bitArray := fun _ => 0
          itemCount := 0 }
        "a"
    searchTrie := Trie.new
    metricsBuffer := RingBuffer.new 10000
    queryCount := 0
    totalQueryTime := 0 }

/-- C6 counterexample: the key `i` was never added to the filter (only
`a` was), yet `getEntry('i')` performs one store call (the
`fs.pathExists` check inside `entryExists`): the filter answers
`contains = true` by hash collision (a false positive), so the
definitely-absent shortcut does not fire.  Bloom false positives are
inherent (the spec itself bounds them only probabilistically), so "never
added" does not imply "no store I/O". -/
theorem getEntry_false_positive_hits_store :
    ("i" : String) ≠ "a" ∧
    engineC6.existsFilter.contains "i" = true ∧
    (PerformanceEngine.getEntry (fun _ => false) (fun _ => none) engineC6
      "i" 1).storeCalls = 1 ∧
    (PerformanceEngine.getEntry (fun _ => false) (fun _ => none) engineC6
      "i" 1).value = none :=
  ⟨by decide, rfl, rfl, rfl⟩

/-- C6 (amended): the negative short-circuit holds for every key the
filter reports definitely absent (`contains = false`): `entryExists`
returns false at once, touching neither cache nor store, and `getEntry`
— when the key is also not in the memory cache — resolves to absent
with the store-call count unchanged. -/
theorem engine_negative_shortcircuit (pathExists : String → Bool)
    (readJson : String → Option JournalEntryData) (s : PerformanceEngine)
    (date : String) (now : Nat)
    (hfilter : s.existsFilter.contains date = false) :
    PerformanceEngine.entryExists pathExists s date now = ⟨false, s, 0⟩ ∧
    ((s.cache.get ("entry_" ++ date) now).1 = none →
      (PerformanceEngine.getEntry pathExists readJson s date now).value =
        none ∧
      (PerformanceEngine.getEntry pathExists readJson s date now).storeCalls =
        0) := by
  constructor
  · rw [PerformanceEngine.entryExists, if_pos hfilter]
  · intro hcache
    have hfilter₂ :
        ({ s with cache := (s.cache.get ("entry_" ++ date) now).2
           : PerformanceEngine }).existsFilter.contains date = false :=
      hfilter
    have hex : PerformanceEngine.entryExists pathExists
        { s with cache := (s.cache.get ("entry_" ++ date) now).2 } date now =
        ⟨false, { s with cache := (s.cache.get ("entry_" ++ date) now).2 },
          0⟩ := by
      rw [PerformanceEngine.entryExists, if_pos hfilter₂]
    rw [PerformanceEngine.getEntry, hcache, hex]
    exact ⟨rfl, rfl⟩

/-- Witness for C6 (amended) at a concrete input: a fresh engine (empty
filter, empty cache) resolves the key `b` to absent with zero store
calls. -/
def engineC6Fresh : PerformanceEngine :=
  { cache := AdvancedLRUCache.new 2000 600000
    existsFilter :=
      { expectedItems := 50000
        falsePositiveRate := 1 / 1000
        bitArraySize := 8
        hashFunctions := 1
        bitArray := fun _ => 0
        itemCount := 0 }
    searchTrie := Trie.new
    metricsBuffer := RingBuffer.new 10000
    queryCount := 0
    totalQueryTime := 0 }

theorem engine_negative_shortcircuit_witness :
    (PerformanceEngine.getEntry (fun _ => true)
      (fun d => some ⟨d, none⟩) engineC6Fresh "b" 1).storeCalls = 0 :=
  ((engine_negative_shortcircuit (fun _ => true) (fun d => some ⟨d, none⟩)
    engineC6Fresh "b" 1 (by rfl)).2 (by rfl)).2

end DailyDevJournal